import Mathlib

/-!
Verification of the playback/ordering pipeline of the main-orbits
application against its specification.

The repository sources provide the surrounding application
(`src/unnamed/part_000`, the App component) and the translation service
(`src/services/geminiService.ts`).  The Decode Adapter
(`src/services/audioUtils.ts`) and the Sequential Playback Queue
(`src/services/audioQueue.ts`) are referenced by the App but their files are
not part of the provided sources, so they are modelled here from the
specification (sections 3, 4.1 and 4.2 of the spec), as noted on each
definition.  Everything taken from a provided source file names that file.
-/

/-- A Decoded Audio Buffer: fully materialized PCM samples at a known sample
rate and channel count (spec section 3, "Decoded Audio Buffer"). -/
structure AudioBuffer where
  samples : List ℚ
  sampleRate : ℚ
  channels : Nat
deriving DecidableEq

/-- Number of PCM samples held by a buffer. -/
def AudioBuffer.numSamples (b : AudioBuffer) : Nat := b.samples.length

/-- Duration of a buffer in seconds: sample count over sample rate. -/
def AudioBuffer.duration (b : AudioBuffer) : ℚ := (b.numSamples : ℚ) / b.sampleRate

/-- Modelled from the spec: the Decode Adapter interprets each consecutive
2-byte little-endian pair as a signed 16-bit integer (spec section 4.1).
`toInt16 lo hi` is the signed value of the 16-bit word with low byte `lo` and
high byte `hi`. -/
def toInt16 (lo hi : Nat) : Int :=
  let u := lo % 256 + 256 * (hi % 256)
  if u < 32768 then (u : Int) else (u : Int) - 65536

/-- Modelled from the spec: sample extraction of the Decode Adapter
(`decodeAudioData` in `src/services/audioUtils.ts`, not among the provided
sources; spec section 4.1): consecutive 2-byte little-endian signed integers,
each normalized by dividing by 32768; a trailing odd byte is dropped. -/
def decodeSamples : List Nat → List ℚ
  | lo :: hi :: rest => ((toInt16 lo hi : ℚ) / 32768) :: decodeSamples rest
  | _ => []

/-- Modelled from the spec: the Decode Adapter's sole entry point
(`decodeAudioData` in `src/services/audioUtils.ts`, not among the provided
sources; spec sections 4.1 and 6): raw bytes become one Decoded Audio Buffer
with `floor (byteLength / 2)` samples at the synthesis service's fixed
24 kHz mono format. -/
def decodeAudioData (bytes : List Nat) : AudioBuffer :=
  { samples := decodeSamples bytes, sampleRate := 24000, channels := 1 }

theorem decodeSamples_length : ∀ bytes : List Nat,
    (decodeSamples bytes).length = bytes.length / 2
  | [] => rfl
  | [_] => by simp [decodeSamples]
  | lo :: hi :: rest => by
      have ih := decodeSamples_length rest
      simp only [decodeSamples, List.length_cons, ih]
      omega

theorem decodeSamples_get? : ∀ (i : Nat) (bytes : List Nat) (lo hi : Nat),
    bytes.get? (2 * i) = some lo → bytes.get? (2 * i + 1) = some hi →
    (decodeSamples bytes).get? i = some ((toInt16 lo hi : ℚ) / 32768)
  | 0, [], lo, hi => by simp
  | 0, [_], lo, hi => by simp
  | 0, a :: b :: rest, lo, hi => by
      intro h1 h2
      simp only [Nat.mul_zero, List.get?] at h1 h2
      cases h1; cases h2
      rfl
  | i + 1, [], lo, hi => by simp
  | i + 1, [_], lo, hi => by
      intro h1 _
      have : 2 * (i + 1) = 2 * i + 1 + 1 := by omega
      rw [this] at h1
      simp at h1
  | i + 1, a :: b :: rest, lo, hi => by
      intro h1 h2
      have e1 : 2 * (i + 1) = 2 * i + 1 + 1 := by omega
      have e2 : 2 * (i + 1) + 1 = (2 * i + 1) + 1 + 1 := by omega
      rw [e1] at h1
      rw [e2] at h2
      simp only [List.get?] at h1 h2
      exact decodeSamples_get? i rest lo hi h1 h2

/-- C4: for every raw byte sequence, `decodeAudioData` yields a buffer with
exactly `floor (length / 2)` samples at 24000 Hz mono, the i-th sample being
the i-th 2-byte little-endian signed 16-bit word divided by 32768; on the
concrete input `[0x00, 0x80, 0xFF, 0x7F]` the two samples are `-1` and
`32767 / 32768`. -/
theorem decode_pcm16_correct (bytes : List Nat) :
    (decodeAudioData bytes).sampleRate = 24000 ∧
    (decodeAudioData bytes).channels = 1 ∧
    (decodeAudioData bytes).samples.length = bytes.length / 2 ∧
    (∀ i lo hi, bytes.get? (2 * i) = some lo → bytes.get? (2 * i + 1) = some hi →
      (decodeAudioData bytes).samples.get? i = some ((toInt16 lo hi : ℚ) / 32768)) ∧
    decodeAudioData [0x00, 0x80, 0xFF, 0x7F]
      = { samples := [-1, 32767 / 32768], sampleRate := 24000, channels := 1 } := by
  refine ⟨rfl, rfl, decodeSamples_length bytes, ?_, ?_⟩
  · intro i lo hi h1 h2
    exact decodeSamples_get? i bytes lo hi h1 h2
  · show decodeAudioData [0, 128, 255, 127] = _
    simp only [decodeAudioData, decodeSamples, toInt16]
    norm_num

/-- Witness for C4 at the concrete 4-byte input of the claim. -/
theorem decode_pcm16_correct_witness :
    ([0, 128, 255, 127] : List Nat).get? 0 = some 0 ∧
    ([0, 128, 255, 127] : List Nat).get? 1 = some 128 ∧
    (decodeAudioData [0, 128, 255, 127]).samples.get? 0
      = some ((toInt16 0 128 : ℚ) / 32768) :=
  ⟨rfl, rfl,
    (decode_pcm16_correct [0, 128, 255, 127]).2.2.2.1 0 0 128 rfl rfl⟩

/-- C5: a byte sequence with fewer than 2 bytes decodes to the empty
zero-sample buffer (and `decodeAudioData` is a total function, so no
exception is possible). -/
theorem decode_short_input (bytes : List Nat) (h : bytes.length < 2) :
    decodeAudioData bytes = { samples := [], sampleRate := 24000, channels := 1 } := by
  match bytes with
  | [] => rfl
  | [_] => rfl
  | _ :: _ :: _ => simp at h; omega

/-- Witness for C5 on a 1-byte input. -/
theorem decode_short_input_witness :
    ([42] : List Nat).length < 2 ∧
    decodeAudioData [42] = { samples := [], sampleRate := 24000, channels := 1 } :=
  ⟨by decide, decode_short_input [42] (by decide)⟩

/-- Modelled from the spec: the two states of the Sequential Playback Queue
(`audioQueue` in `src/services/audioQueue.ts`, not among the provided sources;
spec section 4.2): `idle` (nothing queued, nothing playing) and `playing`
(one active buffer with its scheduled start and end times on the output
clock, plus the ordered pending backlog). -/
inductive QueueState where
  | idle : QueueState
  | playing (current : AudioBuffer) (startTime endTime : ℚ)
      (pending : List AudioBuffer) : QueueState
deriving DecidableEq

/-- Events driving the queue, each stamped with the output-clock time at
which it occurs: an `enqueue` call, the active buffer reaching its scheduled
end, and a `flush` call. -/
inductive Event where
  | enqueue (b : AudioBuffer) (t : ℚ)
  | bufferEnd (t : ℚ)
  | flush (t : ℚ)
deriving DecidableEq

/-- Observable output actions of the queue: scheduling a buffer to start
playing at an output-clock time, and hard-stopping the active source. -/
inductive AudioAction where
  | play (b : AudioBuffer) (t : ℚ)
  | stop
deriving DecidableEq

/-- Modelled from the spec: the state machine of the Sequential Playback
Queue (`src/services/audioQueue.ts`, not among the provided sources; spec
section 4.2, bullet by bullet): an enqueue at idle starts the buffer at the
current clock time (a zero-sample buffer being an immediate no-op); an
enqueue while playing appends to the pending backlog; when the active buffer
ends, the front pending buffer is scheduled at the exact recorded end time,
or the queue returns to idle; a flush hard-stops the active source, discards
the backlog and returns to idle. -/
def step : QueueState → Event → QueueState × List AudioAction
  | .idle, .enqueue b t =>
      if b.numSamples = 0 then (.idle, [])
      else (.playing b t (t + b.duration) [], [.play b t])
  | .playing c s e p, .enqueue b _ => (.playing c s e (p ++ [b]), [])
  | .idle, .bufferEnd _ => (.idle, [])
  | .playing _ _ _ [], .bufferEnd _ => (.idle, [])
  | .playing _ _ e (b :: rest), .bufferEnd _ =>
      (.playing b e (e + b.duration) rest, [.play b e])
  | .idle, .flush _ => (.idle, [])
  | .playing _ _ _ _, .flush _ => (.idle, [.stop])

/-- Run the queue over a list of events, collecting the emitted actions. -/
def runQueue : QueueState → List Event → QueueState × List AudioAction
  | s, [] => (s, [])
  | s, e :: es =>
      ((runQueue (step s e).1 es).1, (step s e).2 ++ (runQueue (step s e).1 es).2)

/-- The scheduled plays among a list of actions, in emission order. -/
def playsOf (acts : List AudioAction) : List (AudioBuffer × ℚ) :=
  acts.filterMap fun a => match a with | .play b t => some (b, t) | .stop => none

/-- The buffers passed to `enqueue` in a trace, in call order. -/
def enqueuedOf (es : List Event) : List AudioBuffer :=
  es.filterMap fun e => match e with | .enqueue b _ => some b | _ => none

/-- The pending backlog of a queue state. -/
def pendingOf : QueueState → List AudioBuffer
  | .idle => []
  | .playing _ _ _ p => p

/-- How many buffers are the active output source in a state. -/
def activeCount : QueueState → Nat
  | .idle => 0
  | .playing _ _ _ _ => 1

/-- The clock stamp of an event. -/
def Event.time : Event → ℚ
  | .enqueue _ t => t
  | .bufferEnd t => t
  | .flush t => t

/-- A buffer-end event may only fire once the active buffer's scheduled end
time has been reached on the output clock. -/
def guardB : QueueState → Event → Bool
  | .playing _ _ e _, .bufferEnd t => decide (e ≤ t)
  | _, _ => true

/-- A trace is well timed from a state and a clock value when event stamps
are nondecreasing and every buffer-end respects `guardB`. -/
def validB : QueueState → ℚ → List Event → Bool
  | _, _, [] => true
  | s, t0, e :: es =>
      decide (t0 ≤ e.time) && guardB s e && validB (step s e).1 e.time es

/-- True when the trace contains no flush event. -/
def noFlushB (es : List Event) : Bool :=
  es.all fun e => match e with | .flush _ => false | _ => true

/-- True when every enqueued buffer has at least one sample. -/
def allPosB (es : List Event) : Bool :=
  es.all fun e => match e with | .enqueue b _ => decide (0 < b.numSamples) | _ => true

/-- C3: for every queue state, flush returns the queue to the empty idle
state, emitting a hard stop exactly when a source was active; flushing an
already idle queue is a no-op. -/
theorem flush_resets (s : QueueState) (t : ℚ) :
    step s (.flush t)
      = (.idle, match s with | .idle => [] | .playing _ _ _ _ => [AudioAction.stop])
    ∧ pendingOf (step s (.flush t)).1 = []
    ∧ step .idle (.flush t) = (.idle, []) := by
  cases s <;> simp [step, pendingOf]

/-- C6: enqueuing a zero-sample buffer while the queue is idle is an
immediate no-op: the state stays `idle` and no action is emitted. -/
theorem empty_enqueue_idle_noop (b : AudioBuffer) (t : ℚ) (h : b.numSamples = 0) :
    step .idle (.enqueue b t) = (.idle, []) := by
  simp [step, h]

/-- Witness for C6: the buffer decoded from no bytes has zero samples and its
enqueue at idle is a no-op. -/
theorem empty_enqueue_idle_noop_witness :
    (decodeAudioData []).numSamples = 0 ∧
    step .idle (.enqueue (decodeAudioData []) 0) = (.idle, []) :=
  ⟨rfl, empty_enqueue_idle_noop (decodeAudioData []) 0 rfl⟩

theorem runQueue_cons (s : QueueState) (e : Event) (es : List Event) :
    runQueue s (e :: es)
      = ((runQueue (step s e).1 es).1, (step s e).2 ++ (runQueue (step s e).1 es).2) := rfl

theorem step_idle_enqueue_pos (b : AudioBuffer) (t : ℚ) (h : b.numSamples ≠ 0) :
    step .idle (.enqueue b t) = (.playing b t (t + b.duration) [], [.play b t]) := by
  simp [step, h]

theorem step_playing_enqueue (c : AudioBuffer) (st en : ℚ) (p : List AudioBuffer)
    (b : AudioBuffer) (t : ℚ) :
    step (.playing c st en p) (.enqueue b t) = (.playing c st en (p ++ [b]), []) := by
  simp [step]

theorem step_playing_bufferEnd_nil (c : AudioBuffer) (st en t : ℚ) :
    step (.playing c st en []) (.bufferEnd t) = (.idle, []) := by
  simp [step]

theorem step_playing_bufferEnd_cons (c : AudioBuffer) (st en t : ℚ)
    (b : AudioBuffer) (rest : List AudioBuffer) :
    step (.playing c st en (b :: rest)) (.bufferEnd t)
      = (.playing b en (en + b.duration) rest, [.play b en]) := by
  simp [step]

theorem playsOf_nil : playsOf [] = [] := rfl

theorem playsOf_append (a b : List AudioAction) :
    playsOf (a ++ b) = playsOf a ++ playsOf b := by
  simp [playsOf]

theorem playsOf_play_cons (b : AudioBuffer) (t : ℚ) (acts : List AudioAction) :
    playsOf (.play b t :: acts) = (b, t) :: playsOf acts := by
  simp [playsOf]

theorem enqueuedOf_enqueue_cons (b : AudioBuffer) (t : ℚ) (es : List Event) :
    enqueuedOf (.enqueue b t :: es) = b :: enqueuedOf es := by
  simp [enqueuedOf]

theorem enqueuedOf_bufferEnd_cons (t : ℚ) (es : List Event) :
    enqueuedOf (.bufferEnd t :: es) = enqueuedOf es := by
  simp [enqueuedOf]

/-- Core no-loss invariant: over a flush-free trace of nonempty buffers, the
backlog carried into the trace followed by everything enqueued during it is
exactly the buffers whose playback was started, in order, followed by the
backlog still pending at the end. -/
theorem run_partition (es : List Event) : ∀ s : QueueState,
    noFlushB es = true → allPosB es = true →
    pendingOf s ++ enqueuedOf es
      = (playsOf (runQueue s es).2).map Prod.fst ++ pendingOf (runQueue s es).1 := by
  induction es with
  | nil =>
      intro s _ _
      simp [runQueue, enqueuedOf, playsOf]
  | cons e es ih =>
      intro s hnf hpos
      simp only [noFlushB, List.all_cons, Bool.and_eq_true] at hnf
      obtain ⟨hnf1, hnf2⟩ := hnf
      simp only [allPosB, List.all_cons, Bool.and_eq_true] at hpos
      obtain ⟨hpos1, hpos2⟩ := hpos
      cases e with
      | flush t => simp at hnf1
      | enqueue b t =>
          have hb : b.numSamples ≠ 0 := by
            have : 0 < b.numSamples := by simpa using hpos1
            omega
          cases s with
          | idle =>
              rw [runQueue_cons, step_idle_enqueue_pos b t hb]
              have ihr := ih (.playing b t (t + b.duration) []) hnf2 hpos2
              simp only [pendingOf, List.nil_append] at ihr ⊢
              rw [enqueuedOf_enqueue_cons, playsOf_append, playsOf_play_cons,
                playsOf_nil]
              simpa using congrArg (List.cons b) ihr
          | playing c st en p =>
              rw [runQueue_cons, step_playing_enqueue]
              have ihr := ih (.playing c st en (p ++ [b])) hnf2 hpos2
              simp only [pendingOf] at ihr ⊢
              rw [enqueuedOf_enqueue_cons, playsOf_append, playsOf_nil,
                List.nil_append]
              rw [show p ++ b :: enqueuedOf es = (p ++ [b]) ++ enqueuedOf es by simp]
              exact ihr
      | bufferEnd t =>
          cases s with
          | idle =>
              rw [runQueue_cons]
              have ihr := ih .idle hnf2 hpos2
              simpa [step, enqueuedOf_bufferEnd_cons, playsOf_nil] using ihr
          | playing c st en p =>
              cases p with
              | nil =>
                  rw [runQueue_cons, step_playing_bufferEnd_nil]
                  have ihr := ih .idle hnf2 hpos2
                  simpa [enqueuedOf_bufferEnd_cons, playsOf_nil, pendingOf] using ihr
              | cons b rest =>
                  rw [runQueue_cons, step_playing_bufferEnd_cons]
                  have ihr := ih (.playing b en (en + b.duration) rest) hnf2 hpos2
                  simp only [pendingOf] at ihr ⊢
                  rw [enqueuedOf_bufferEnd_cons, playsOf_append, playsOf_play_cons,
                    playsOf_nil]
                  simpa using congrArg (List.cons b) ihr

/-- Relation between consecutive plays: the later one starts no earlier than
the earlier one's computed end time (start + duration). -/
def chainStep (p q : AudioBuffer × ℚ) : Prop := p.2 + p.1.duration ≤ q.2

instance (p q : AudioBuffer × ℚ) : Decidable (chainStep p q) :=
  inferInstanceAs (Decidable (p.2 + p.1.duration ≤ q.2))

/-- Every play in the list starts no earlier than its predecessor's computed
end time. -/
def Chained (ps : List (AudioBuffer × ℚ)) : Prop := List.Chain' chainStep ps

instance (ps : List (AudioBuffer × ℚ)) : Decidable (Chained ps) :=
  inferInstanceAs (Decidable (List.Chain' chainStep ps))

/-- Exact back-to-back chaining: each play starts exactly at its
predecessor's computed end time. -/
def exactStep (p q : AudioBuffer × ℚ) : Prop := q.2 = p.2 + p.1.duration

instance (p q : AudioBuffer × ℚ) : Decidable (exactStep p q) :=
  inferInstanceAs (Decidable (q.2 = p.2 + p.1.duration))

/-- Each play in the list starts exactly at its predecessor's computed end
time. -/
def ExactChained (ps : List (AudioBuffer × ℚ)) : Prop := List.Chain' exactStep ps

instance (ps : List (AudioBuffer × ℚ)) : Decidable (ExactChained ps) :=
  inferInstanceAs (Decidable (List.Chain' exactStep ps))

/-- Chained, with the first play additionally bounded below by `lb`. -/
def ChainedFrom (lb : ℚ) : List (AudioBuffer × ℚ) → Prop
  | [] => True
  | p :: ps => lb ≤ p.2 ∧ Chained (p :: ps)

theorem chainedFrom_mono {lb lc : ℚ} {ps : List (AudioBuffer × ℚ)}
    (h : lc ≤ lb) : ChainedFrom lb ps → ChainedFrom lc ps := by
  cases ps with
  | nil => intro _; trivial
  | cons p tl => exact fun hp => ⟨le_trans h hp.1, hp.2⟩

theorem chainedFrom_chained {lb : ℚ} {ps : List (AudioBuffer × ℚ)} :
    ChainedFrom lb ps → Chained ps := by
  cases ps with
  | nil => intro _; exact List.chain'_nil
  | cons p tl => exact fun hp => hp.2

theorem chained_cons {p : AudioBuffer × ℚ} {ps : List (AudioBuffer × ℚ)}
    (h : ChainedFrom (p.2 + p.1.duration) ps) : Chained (p :: ps) := by
  cases ps with
  | nil => exact List.chain'_singleton p
  | cons q tl => exact List.chain'_cons.mpr ⟨h.1, h.2⟩

/-- The earliest output-clock time at which the next play may be scheduled:
the current time when idle, the recorded scheduled end time when playing. -/
def lowerBound : QueueState → ℚ → ℚ
  | .idle, t0 => t0
  | .playing _ _ en _, _ => en

/-- Internal consistency of a playing state: the recorded scheduled end time
is the scheduled start plus the active buffer's duration. -/
def StateInv : QueueState → Prop
  | .idle => True
  | .playing c st en _ => en = st + c.duration

/-- Core timing invariant: over a well-timed, flush-free trace of nonempty
buffers, the plays started by the queue are chained (each starts no earlier
than its predecessor's computed end, with the first one no earlier than the
state's lower bound), and the recorded end times stay consistent. -/
theorem run_chained (es : List Event) : ∀ (s : QueueState) (t0 : ℚ),
    validB s t0 es = true → noFlushB es = true → allPosB es = true → StateInv s →
    ChainedFrom (lowerBound s t0) (playsOf (runQueue s es).2)
      ∧ StateInv (runQueue s es).1 := by
  induction es with
  | nil =>
      intro s t0 _ _ _ hinv
      exact ⟨trivial, hinv⟩
  | cons e es ih =>
      intro s t0 hv hnf hpos hinv
      simp only [validB, Bool.and_eq_true, decide_eq_true_eq] at hv
      obtain ⟨⟨ht, hg⟩, hv2⟩ := hv
      simp only [noFlushB, List.all_cons, Bool.and_eq_true] at hnf
      obtain ⟨hnf1, hnf2⟩ := hnf
      simp only [allPosB, List.all_cons, Bool.and_eq_true] at hpos
      obtain ⟨hpos1, hpos2⟩ := hpos
      cases e with
      | flush t => simp at hnf1
      | enqueue b t =>
          have hb : b.numSamples ≠ 0 := by
            have : 0 < b.numSamples := by simpa using hpos1
            omega
          cases s with
          | idle =>
              rw [runQueue_cons, step_idle_enqueue_pos b t hb]
              have hv2' : validB (.playing b t (t + b.duration) []) t es = true := by
                rw [step_idle_enqueue_pos b t hb] at hv2
                exact hv2
              have ihr := ih (.playing b t (t + b.duration) []) t hv2' hnf2 hpos2 rfl
              rw [playsOf_append, playsOf_play_cons, playsOf_nil]
              refine ⟨⟨ht, chained_cons ?_⟩, ihr.2⟩
              exact ihr.1
          | playing c st en p =>
              rw [runQueue_cons, step_playing_enqueue]
              have hv2' : validB (.playing c st en (p ++ [b])) t es = true := by
                rw [step_playing_enqueue] at hv2
                exact hv2
              have ihr := ih (.playing c st en (p ++ [b])) t hv2' hnf2 hpos2 hinv
              rw [playsOf_append, playsOf_nil, List.nil_append]
              exact ⟨ihr.1, ihr.2⟩
      | bufferEnd t =>
          cases s with
          | idle =>
              rw [runQueue_cons]
              have ihr := ih .idle t hv2 hnf2 hpos2 trivial
              simp only [step, playsOf_nil, List.nil_append]
              exact ⟨chainedFrom_mono ht ihr.1, ihr.2⟩
          | playing c st en p =>
              have hent : en ≤ t := by
                simpa [guardB] using hg
              cases p with
              | nil =>
                  rw [runQueue_cons, step_playing_bufferEnd_nil]
                  have hv2' : validB .idle t es = true := by
                    rw [step_playing_bufferEnd_nil] at hv2
                    exact hv2
                  have ihr := ih .idle t hv2' hnf2 hpos2 trivial
                  simp only [playsOf_nil, List.nil_append]
                  exact ⟨chainedFrom_mono hent ihr.1, ihr.2⟩
              | cons b rest =>
                  rw [runQueue_cons, step_playing_bufferEnd_cons]
                  have hv2' : validB (.playing b en (en + b.duration) rest) t es = true := by
                    rw [step_playing_bufferEnd_cons] at hv2
                    exact hv2
                  have ihr := ih (.playing b en (en + b.duration) rest) t hv2' hnf2 hpos2 rfl
                  rw [playsOf_append, playsOf_play_cons, playsOf_nil]
                  exact ⟨⟨le_refl en, chained_cons ihr.1⟩, ihr.2⟩

/-- C1: over any well-timed, flush-free trace of enqueues of nonempty
buffers and buffer-end events — with arbitrary clock gaps between enqueue
calls — the buffers whose playback the queue starts are exactly a prefix of
the enqueued sequence (the remainder still pending, in order, so nothing is
ever reordered), and each started play begins no earlier than the previous
play's computed end time. -/
theorem enqueue_order_preserved (es : List Event) (t0 : ℚ)
    (hv : validB .idle t0 es = true) (hnf : noFlushB es = true)
    (hpos : allPosB es = true) :
    enqueuedOf es
      = (playsOf (runQueue .idle es).2).map Prod.fst ++ pendingOf (runQueue .idle es).1
    ∧ Chained (playsOf (runQueue .idle es).2) := by
  constructor
  · simpa [pendingOf] using run_partition es .idle hnf hpos
  · exact chainedFrom_chained (run_chained es .idle t0 hv hnf hpos trivial).1

/-- Example buffer: one PCM sample decoded from the bytes `[0x00, 0x80]`. -/
def exBufA : AudioBuffer := decodeAudioData [0, 128]

/-- Example buffer: one PCM sample decoded from the bytes `[0xFF, 0x7F]`. -/
def exBufB : AudioBuffer := decodeAudioData [255, 127]

/-- Trace for the C1 witness: two enqueues back to back, then both buffers
play out. -/
def c1trace : List Event :=
  [.enqueue exBufA 0, .enqueue exBufB 0,
   .bufferEnd (1 / 24000), .bufferEnd (1 / 12000)]

/-- Witness for C1 on a concrete two-buffer trace. -/
theorem enqueue_order_preserved_witness :
    validB .idle 0 c1trace = true ∧
    enqueuedOf c1trace
      = (playsOf (runQueue .idle c1trace).2).map Prod.fst
          ++ pendingOf (runQueue .idle c1trace).1 :=
  ⟨by
    norm_num [c1trace, validB, guardB, step, Event.time, exBufA, exBufB,
      decodeAudioData, decodeSamples, AudioBuffer.numSamples, AudioBuffer.duration],
    (enqueue_order_preserved c1trace 0
      (by
        norm_num [c1trace, validB, guardB, step, Event.time, exBufA, exBufB,
          decodeAudioData, decodeSamples, AudioBuffer.numSamples, AudioBuffer.duration])
      (by decide) (by decide)).1⟩

/-- Trace refuting C2 as stated: one buffer plays out completely, the queue
goes idle, and only later (clock time 1) is a second buffer enqueued. -/
def cexTrace : List Event :=
  [.enqueue exBufA 0, .bufferEnd (1 / 24000), .enqueue exBufB 1]

/-- Counterexample to C2 as stated: on the well-timed, flush-free trace
`cexTrace` the two consecutively played buffers are scheduled at clock times
0 and 1, and 1 is not 0 plus the first buffer's duration (1/24000 s): after
the queue goes idle, the next play starts at the then-current clock time,
not at the previous play's end. -/
theorem back_to_back_cex :
    validB .idle 0 cexTrace = true ∧ noFlushB cexTrace = true
    ∧ allPosB cexTrace = true
    ∧ playsOf (runQueue .idle cexTrace).2 = [(exBufA, 0), (exBufB, 1)]
    ∧ ¬ ExactChained (playsOf (runQueue .idle cexTrace).2) := by
  have hp : playsOf (runQueue .idle cexTrace).2 = [(exBufA, 0), (exBufB, 1)] := rfl
  refine ⟨?_, by decide, by decide, hp, ?_⟩
  · norm_num [cexTrace, validB, guardB, step, Event.time, exBufA, exBufB,
      decodeAudioData, decodeSamples, AudioBuffer.numSamples, AudioBuffer.duration]
  · rw [hp]
    intro h
    have h1 : exactStep (exBufA, 0) (exBufB, 1) := (List.chain'_cons.mp h).1
    have h2 : ¬ exactStep (exBufA, 0) (exBufB, 1) := by
      norm_num [exactStep, exBufA, exBufB, decodeAudioData, decodeSamples,
        AudioBuffer.numSamples, AudioBuffer.duration]
    exact h2 h1

/-- C2 (amended): over any well-timed, flush-free trace of nonempty buffers,
consecutively started plays never overlap (each starts no earlier than its
predecessor's start plus duration); whenever the active buffer's end is
reached while a successor is pending — in particular when that successor was
enqueued after the active buffer had already started playing — the successor
is scheduled at exactly the recorded end time, which is the active buffer's
start plus its duration, not at the observed completion time; and at most
one buffer is the active output source in any queue state.  (Exact equality
cannot hold for every consecutive pair: see the counterexample where the
queue passes through idle in between.) -/
theorem back_to_back_schedule (es : List Event) (t0 : ℚ)
    (hv : validB .idle t0 es = true) (hnf : noFlushB es = true)
    (hpos : allPosB es = true) :
    Chained (playsOf (runQueue .idle es).2)
    ∧ (∀ c st en b rest, (runQueue .idle es).1 = .playing c st en (b :: rest) →
        en = st + c.duration ∧
        ∀ t : ℚ, step (.playing c st en (b :: rest)) (.bufferEnd t)
          = (.playing b en (en + b.duration) rest, [.play b en]))
    ∧ (∀ s : QueueState, activeCount s ≤ 1) := by
  have h := run_chained es .idle t0 hv hnf hpos trivial
  refine ⟨chainedFrom_chained h.1, ?_, ?_⟩
  · intro c st en b rest hfin
    have hinv := h.2
    rw [hfin] at hinv
    exact ⟨hinv, fun t => step_playing_bufferEnd_cons c st en t b rest⟩
  · intro s
    cases s <;> simp [activeCount]

/-- Trace for the C2 witness: a second buffer is enqueued while the first is
still playing, so it sits pending behind the active one. -/
def c2trace : List Event := [.enqueue exBufA 0, .enqueue exBufB 0]

/-- Witness for C2 (amended) on a concrete trace that ends with a pending
successor: the queue is playing `exBufA` with `exBufB` pending, and the
buffer-end transition schedules `exBufB` at exactly the recorded end time. -/
theorem back_to_back_schedule_witness :
    validB .idle 0 c2trace = true ∧
    (runQueue .idle c2trace).1
      = .playing exBufA 0 (0 + exBufA.duration) [exBufB] ∧
    ((0 + exBufA.duration : ℚ) = 0 + exBufA.duration ∧
      ∀ t : ℚ, step (.playing exBufA 0 (0 + exBufA.duration) [exBufB]) (.bufferEnd t)
        = (.playing exBufB (0 + exBufA.duration)
            ((0 + exBufA.duration) + exBufB.duration) [], [.play exBufB (0 + exBufA.duration)])) :=
  ⟨by
    norm_num [c2trace, validB, guardB, step, Event.time, exBufA, exBufB,
      decodeAudioData, decodeSamples, AudioBuffer.numSamples, AudioBuffer.duration],
    rfl,
    (back_to_back_schedule c2trace 0
      (by
        norm_num [c2trace, validB, guardB, step, Event.time, exBufA, exBufB,
          decodeAudioData, decodeSamples, AudioBuffer.numSamples, AudioBuffer.duration])
      (by decide) (by decide)).2.1
      exBufA 0 (0 + exBufA.duration) exBufB [] rfl⟩

/-- C7: enqueue is a total, synchronous transition that never rejects a
buffer: while playing it simply appends to the pending backlog with no depth
bound, and over any flush-free trace of nonempty buffers every buffer ever
accepted is either already played (in order) or still pending — none is
discarded. -/
theorem enqueue_never_discards (es : List Event)
    (hnf : noFlushB es = true) (hpos : allPosB es = true) :
    (∀ c st en p b t, step (.playing c st en p) (.enqueue b t)
        = (.playing c st en (p ++ [b]), []))
    ∧ enqueuedOf es
        = (playsOf (runQueue .idle es).2).map Prod.fst ++ pendingOf (runQueue .idle es).1 := by
  constructor
  · intro c st en p b t
    exact step_playing_enqueue c st en p b t
  · simpa [pendingOf] using run_partition es .idle hnf hpos

/-- Trace for the C7 witness: three buffers enqueued while the first is
still playing; the last two accumulate in the backlog. -/
def c7trace : List Event :=
  [.enqueue exBufA 0, .enqueue exBufB 0, .enqueue exBufA 0]

/-- Witness for C7: after three enqueues and no buffer end, one buffer has
started playing and the other two are still pending, in order. -/
theorem enqueue_never_discards_witness :
    noFlushB c7trace = true ∧
    enqueuedOf c7trace
      = (playsOf (runQueue .idle c7trace).2).map Prod.fst
          ++ pendingOf (runQueue .idle c7trace).1 :=
  ⟨by decide, (enqueue_never_discards c7trace (by decide) (by decide)).2⟩

/-- Result shape of the translate-and-synthesize service, from
`src/services/geminiService.ts` (`TranslationResult`): the translated text
plus the optional base64 audio payload. -/
structure TranslationResult where
  translatedText : String
  audioData : Option String
deriving DecidableEq

/-- Outcome of one network call to the generative-AI API, as seen by the
service wrappers in `src/services/geminiService.ts`: either the call raised
(network failure, missing API key) or it returned a response whose relevant
optional field is the carried value. -/
inductive ApiResponse (A : Type) where
  | ok (value : A)
  | thrown
deriving DecidableEq

/-- From `src/services/geminiService.ts` lines 74-102 (`translateText`): the
model call is abstracted by its outcome `resp` (the response's optional
`text` field, or `thrown` for a raised error).  The source returns
`response.text?.trim() || null` and maps every raised error to `null`. -/
def translateText (resp : ApiResponse (Option String)) : Option String :=
  match resp with
  | .thrown => none
  | .ok none => none
  | .ok (some t) => if t.trim = "" then none else some t.trim

/-- From `src/services/geminiService.ts` lines 107-137 (`generateSpeech`):
the TTS call is abstracted by its outcome `resp` (the first candidate part's
optional `inlineData.data` field, or `thrown`).  The source returns the data
only when the part chain and the data string are truthy, and maps every
raised error to `null`. -/
def generateSpeech (resp : ApiResponse (Option String)) : Option String :=
  match resp with
  | .thrown => none
  | .ok none => none
  | .ok (some data) => if data = "" then none else some data

/-- From `src/services/geminiService.ts` lines 143-169 (`translateAndSpeak`):
translate first; a `null` translation raises, which the surrounding catch
turns into a `null` result; otherwise synthesize audio only when
`shouldGenerateAudio` is set, keeping `audioData` as `null` when synthesis
yields nothing.  The two network calls are abstracted by their outcomes. -/
def translateAndSpeak (transResp speechResp : ApiResponse (Option String))
    (shouldGenerateAudio : Bool) : Option TranslationResult :=
  match translateText transResp with
  | none => none
  | some t =>
      some { translatedText := t
             audioData := if shouldGenerateAudio then generateSpeech speechResp else none }

/-- C10: `translateAndSpeak` is a total function of the two call outcomes
(so no exception reaches its caller); it returns `none` exactly when
translation failed, in particular whenever the response text trims to empty;
any returned result has nonempty translated text, and its `audioData` is
`none` exactly when audio generation was off or speech synthesis produced no
audio part. -/
theorem translateAndSpeak_contract (tr sp : ApiResponse (Option String)) (gen : Bool) :
    (translateAndSpeak tr sp gen = none ↔ translateText tr = none)
    ∧ (∀ t, tr = .ok (some t) → t.trim = "" → translateAndSpeak tr sp gen = none)
    ∧ (∀ r, translateAndSpeak tr sp gen = some r →
        r.translatedText ≠ ""
        ∧ (r.audioData = none ↔ (gen = false ∨ generateSpeech sp = none))) := by
  refine ⟨?_, ?_, ?_⟩
  · cases tr with
    | thrown => simp [translateAndSpeak, translateText]
    | ok v =>
        cases v with
        | none => simp [translateAndSpeak, translateText]
        | some t =>
            by_cases ht : t.trim = "" <;>
              simp [translateAndSpeak, translateText, ht]
  · intro t htr htrim
    subst htr
    simp [translateAndSpeak, translateText, htrim]
  · intro r hr
    cases tr with
    | thrown => simp [translateAndSpeak, translateText] at hr
    | ok v =>
        cases v with
        | none => simp [translateAndSpeak, translateText] at hr
        | some t =>
            by_cases ht : t.trim = ""
            · simp [translateAndSpeak, translateText, ht] at hr
            · simp [translateAndSpeak, translateText, ht] at hr
              constructor
              · rw [← hr]
                simpa using ht
              · rw [← hr]
                cases gen with
                | false => simp
                | true => simp

/-- Witness for C10: a thrown translation call yields a `none` result. -/
theorem translateAndSpeak_contract_witness :
    translateAndSpeak .thrown (.ok none) true = none
    ∧ (translateAndSpeak .thrown (.ok none) true = none ↔ translateText .thrown = none) :=
  ⟨rfl, (translateAndSpeak_contract .thrown (.ok none) true).1⟩

/-- What the App does with one incoming remote message, viewed from the
audio pipeline: which audio payloads it decodes and enqueues, and what the
caption path shows. -/
structure RemoteOutcome where
  enqueuedAudio : List String
  captionOriginal : Bool
  captionTranslated : Option String
deriving DecidableEq

/-- From `src/unnamed/part_000` lines 434-456 (the messages INSERT
subscription handler, remote-message branch): on a non-null result the
caption shows the original and translated text, and the audio payload is
decoded and enqueued only when the result carries truthy audio data and the
speaker is on; on a null result only the original caption is shown and the
audio step is skipped entirely. -/
def handleRemoteMessage (result : Option TranslationResult) (isSpeakerOn : Bool) :
    RemoteOutcome :=
  match result with
  | some r =>
      { enqueuedAudio :=
          match r.audioData with
          | some data => if data = "" then [] else if isSpeakerOn then [data] else []
          | none => []
        captionOriginal := true
        captionTranslated := some r.translatedText }
  | none =>
      { enqueuedAudio := [], captionOriginal := true, captionTranslated := none }

/-- From `src/unnamed/part_000` lines 482-494 (`handleFinalTranscript`,
local echo audio branch): the audio payload is decoded and enqueued only
when the result is non-null and carries truthy audio data. -/
def handleLocalTranscriptAudio (result : Option TranslationResult) : List String :=
  match result with
  | some r =>
      match r.audioData with
      | some data => if data = "" then [] else [data]
      | none => []
  | none => []

/-- C8: when the translate-and-synthesize call fails (null result) or
returns a result whose audio data is null, neither the remote-message
handler nor the local transcript handler decodes or enqueues anything for
that utterance, while the caption path still displays the text. -/
theorem failed_translation_skips_audio (result : Option TranslationResult) (spk : Bool)
    (h : result = none ∨ ∃ r, result = some r ∧ r.audioData = none) :
    (handleRemoteMessage result spk).enqueuedAudio = []
    ∧ (handleRemoteMessage result spk).captionOriginal = true
    ∧ handleLocalTranscriptAudio result = [] := by
  rcases h with h | ⟨r, hr, ha⟩
  · subst h
    exact ⟨rfl, rfl, rfl⟩
  · subst hr
    simp [handleRemoteMessage, handleLocalTranscriptAudio, ha]

/-- Witness for C8 on a result that carries text but no audio data. -/
theorem failed_translation_skips_audio_witness :
    ((some { translatedText := "hola", audioData := none } : Option TranslationResult) = none
      ∨ ∃ r, (some { translatedText := "hola", audioData := none } : Option TranslationResult)
          = some r ∧ r.audioData = none)
    ∧ (handleRemoteMessage (some { translatedText := "hola", audioData := none }) true).enqueuedAudio = []
    ∧ (handleRemoteMessage (some { translatedText := "hola", audioData := none }) true).captionOriginal = true
    ∧ handleLocalTranscriptAudio (some { translatedText := "hola", audioData := none }) = [] :=
  ⟨Or.inr ⟨_, rfl, rfl⟩,
    failed_translation_skips_audio (some { translatedText := "hola", audioData := none }) true
      (Or.inr ⟨_, rfl, rfl⟩)⟩

/-- The views of the App component (`src/unnamed/part_000`). -/
inductive AppView where
  | landing
  | profile
  | dashboard
  | call
  | waitingRoom
deriving DecidableEq

/-- The slice of the App component's state touched by `handleEndCall`
(`src/unnamed/part_000`), media streams abstracted to presence booleans. -/
structure AppState where
  queue : QueueState
  view : AppView
  activeGroupId : Option String
  liveCaption : Option String
  pendingGuests : List String
  showParticipants : Bool
  isRecording : Bool
  hasLocalStream : Bool
  hasScreenStream : Bool
deriving DecidableEq

/-- Modelled from the spec: `audioQueue.clear()` — called by the App, with
the queue's own file not among the provided sources — is the queue's flush
transition (spec section 3, Lifecycle: the queue "is flushed (not
destroyed) whenever a call ends").  It returns the queue's new state,
keeping the queue itself alive. -/
def audioQueueClear (q : QueueState) : QueueState := (step q (.flush 0)).1

/-- From `src/unnamed/part_000` lines 297-313 (`handleEndCall`): stop both
media streams, clear the playback queue, return to the dashboard view and
reset the per-call UI state.  The queue field persists; only its state is
cleared. -/
def handleEndCall (s : AppState) : AppState :=
  { s with
    hasLocalStream := false
    hasScreenStream := false
    queue := audioQueueClear s.queue
    view := .dashboard
    activeGroupId := none
    liveCaption := none
    pendingGuests := []
    showParticipants := false
    isRecording := false }

/-- C9: ending a call flushes the playback queue — afterwards it is idle,
with no active source and no pending buffers — but the queue is not
destroyed: it remains in the application state and a subsequent enqueue of
a nonempty buffer starts fresh playback on the same queue. -/
theorem end_call_flushes_queue (s : AppState) :
    (handleEndCall s).queue = .idle
    ∧ activeCount (handleEndCall s).queue = 0
    ∧ pendingOf (handleEndCall s).queue = []
    ∧ ∀ (b : AudioBuffer) (t : ℚ), 0 < b.numSamples →
        step (handleEndCall s).queue (.enqueue b t)
          = (.playing b t (t + b.duration) [], [.play b t]) := by
  have hq : (handleEndCall s).queue = .idle := by
    cases hs : s.queue <;> simp [handleEndCall, audioQueueClear, step, hs]
  refine ⟨hq, by rw [hq]; rfl, by rw [hq]; rfl, ?_⟩
  intro b t hb
  rw [hq]
  exact step_idle_enqueue_pos b t (by omega)

/-- A concrete mid-call application state for the C9 witness: a buffer is
playing with another pending. -/
def exAppState : AppState :=
  { queue := .playing exBufA 0 (0 + exBufA.duration) [exBufB]
    view := .call
    activeGroupId := some "g1"
    liveCaption := some "hello"
    pendingGuests := []
    showParticipants := false
    isRecording := true
    hasLocalStream := true
    hasScreenStream := false }

/-- Witness for C9: after ending the call from `exAppState`, enqueuing a
nonempty buffer starts fresh playback at the given clock time. -/
theorem end_call_flushes_queue_witness :
    0 < exBufA.numSamples ∧
    step (handleEndCall exAppState).queue (.enqueue exBufA 5)
      = (.playing exBufA 5 (5 + exBufA.duration) [], [.play exBufA 5]) :=
  ⟨by decide, (end_call_flushes_queue exAppState).2.2.2 exBufA 5 (by decide)⟩
